import Mathlib

/-!
Shallow embedding of the selection engine (`pickNextIndex` and its helpers
`shuffledIndices`, `buildCandidates`, `pickByWeight`) and of the seeded
pseudo-random generator (`createSeededRandom` / `hashSeed`) of the
react-random-loading-indicator repository.

Modelling conventions:
* JavaScript numbers are modelled as exact rationals (`ℚ`); the pool size
  `total` is modelled as an integer (`ℤ`) since the code compares it with
  `0` and `1` and it is an index count everywhere else.
* The stateful zero-argument closure `random()` is modelled as a stream
  `src : ℕ → ℚ` of its successive return values together with an explicit
  cursor `pos : ℕ`; consuming one value returns `src pos` and advances the
  cursor.  All claims constrain the values to `[0,1)` (or the model is only
  exercised there), matching the contract of `Math.random`.
* The in-place mutation of `shuffleState` is modelled by returning the
  updated `ShuffleState` alongside the picked index.
* 32-bit JavaScript bitwise arithmetic (`>>>`, `^`, `|`, `Math.imul`, `+`
  followed by coercion to 32 bits) is modelled on `ℕ` values kept below
  `2 ^ 32`, with an explicit `% TWO32` where the source relies on 32-bit
  wrap-around.
-/

namespace RRLI

/-- RandomStrategy union type of the source: `uniform`, `weighted` or `shuffle`. -/
inductive RandomStrategy
  | uniform
  | weighted
  | shuffle
deriving DecidableEq, Repr

/-- ShuffleState record of the source: the unconsumed permutation queue and the
signature of the pool configuration it was built for. -/
structure ShuffleState where
  queue : List ℕ
  signature : String
deriving DecidableEq, Repr

/-- Parameters of `pickNextIndex` from the source, minus the `random` closure,
which is modelled separately as a stream plus cursor. -/
structure PickNextIndexParams where
  total : ℤ
  weights : List ℚ
  strategy : RandomStrategy
  previousIndex : Option ℕ
  avoidImmediateRepeat : Bool
  shuffleState : ShuffleState
  signature : String

/-- Embedding of the JavaScript idiom `Math.floor(r * n)` for a random scale
`r` and a natural bound `n`. -/
def floorMul (r : ℚ) (n : ℕ) : ℕ :=
  (⌊r * (n : ℚ)⌋).toNat

/-- Embedding of the destructuring swap
`[result[i], result[j]] = [result[j], result[i]]`.  In every call the source
makes, both indices are in bounds, so the fallback branch that leaves the
list unchanged is never exercised under the claims' hypotheses. -/
def listSwap (l : List ℕ) (i j : ℕ) : List ℕ :=
  match l[i]?, l[j]? with
  | some a, some b => (l.set i b).set j a
  | _, _ => l

/-- Fisher–Yates loop of `shuffledIndices`: iterates `i` from `hi` down to `1`,
swapping position `i` with position `Math.floor(random() * (i + 1))` and
consuming one random value per iteration. -/
def fisherYatesAux (src : ℕ → ℚ) : ℕ → List ℕ → ℕ → List ℕ × ℕ
  | 0, l, pos => (l, pos)
  | i + 1, l, pos =>
      fisherYatesAux src i (listSwap l (i + 1) (floorMul (src pos) (i + 2))) (pos + 1)

/-- Embedding of `shuffledIndices(total, random)`: a Fisher–Yates shuffle of
`[0, total)` driven by the random stream. -/
def shuffledIndices (total : ℕ) (src : ℕ → ℚ) (pos : ℕ) : List ℕ × ℕ :=
  fisherYatesAux src (total - 1) (List.range total) pos

/-- Embedding of `buildCandidates(total, previousIndex, avoidImmediateRepeat)`. -/
def buildCandidates (total : ℕ) (previousIndex : Option ℕ)
    (avoidImmediateRepeat : Bool) : List ℕ :=
  let all := List.range total
  if avoidImmediateRepeat = false ∨ previousIndex = none ∨ total ≤ 1 then all
  else all.filter (fun index => previousIndex ≠ some index)

/-- Effective weight of a candidate: `Math.max(0, weights[candidate] ?? 1)`. -/
def effectiveWeight (weights : List ℚ) (candidate : ℕ) : ℚ :=
  max 0 ((weights.get? candidate).getD 1)

/-- Cumulative walk of `pickByWeight`: subtract each candidate's effective
weight from the running cursor and stop at the first candidate where the
cursor drops to `≤ 0`; `none` models falling off the end of the loop. -/
def weightWalk (weights : List ℚ) : List ℕ → ℚ → Option ℕ
  | [], _ => none
  | c :: rest, cursor =>
      let cursor' := cursor - effectiveWeight weights c
      if cursor' ≤ 0 then some c else weightWalk weights rest cursor'

/-- Embedding of `pickByWeight(candidates, weights, random)`.  One random value
is consumed in either branch.  The `getD` defaults stand for the JavaScript
indexing expressions `candidates[...]`, which are in bounds in every reachable
call (the caller guarantees `candidates` nonempty and the random value lies in
`[0,1)`), and `candidates[candidates.length - 1]` for the defensive
walk-exhaustion fallback. -/
def pickByWeight (candidates : List ℕ) (weights : List ℚ) (src : ℕ → ℚ)
    (pos : ℕ) : ℕ × ℕ :=
  let totalWeight := (candidates.map (effectiveWeight weights)).sum
  if totalWeight ≤ 0 then
    (candidates.getD (floorMul (src pos) candidates.length) 0, pos + 1)
  else
    ((weightWalk weights candidates (src pos * totalWeight)).getD
      (candidates.getLast?.getD 0), pos + 1)

/-- Signature check of the shuffle branch: on mismatch adopt the new signature
and discard the queue. -/
def shuffleStep1 (st : ShuffleState) (signature : String) : ShuffleState :=
  if st.signature ≠ signature then { queue := [], signature := signature } else st

/-- Refill step of the shuffle branch: if the queue is empty, install a fresh
shuffled permutation of `[0, total)`. -/
def shuffleStep2 (total : ℕ) (src : ℕ → ℚ) (st : ShuffleState) (pos : ℕ) :
    ShuffleState × ℕ :=
  if st.queue = [] then
    let s := shuffledIndices total src pos
    ({ queue := s.1, signature := st.signature }, s.2)
  else (st, pos)

/-- Corrective-swap step of the shuffle branch: when repeat avoidance is on,
a previous index exists, the queue has more than one entry and its front
equals the previous index, swap the front with a random non-front position. -/
def shuffleStep3 (previousIndex : Option ℕ) (avoidImmediateRepeat : Bool)
    (src : ℕ → ℚ) (st : ShuffleState) (pos : ℕ) : ShuffleState × ℕ :=
  if avoidImmediateRepeat = true ∧ previousIndex ≠ none ∧
      1 < st.queue.length ∧ st.queue.head? = previousIndex then
    let swapIndex := 1 + floorMul (src pos) (st.queue.length - 1)
    ({ queue := listSwap st.queue 0 swapIndex, signature := st.signature }, pos + 1)
  else (st, pos)

/-- Cycle-boundary step of the shuffle branch: when the queue holds exactly the
previous index, regenerate a full permutation and, if its front again collides
with the previous index and it has more than one entry, swap the first two
positions. -/
def shuffleStep4 (total : ℕ) (previousIndex : Option ℕ)
    (avoidImmediateRepeat : Bool) (src : ℕ → ℚ) (st : ShuffleState) (pos : ℕ) :
    ShuffleState × ℕ :=
  if avoidImmediateRepeat = true ∧ previousIndex ≠ none ∧
      st.queue.length = 1 ∧ st.queue.head? = previousIndex then
    let s := shuffledIndices total src pos
    let q := if s.1.head? = previousIndex ∧ 1 < s.1.length then listSwap s.1 0 1 else s.1
    ({ queue := q, signature := st.signature }, s.2)
  else (st, pos)

/-- Final step of the shuffle branch: `shuffleState.queue.shift()`, returning
the front element (or the `null` sentinel on an empty queue) and the rest. -/
def shufflePop (st : ShuffleState) : Option ℕ × ShuffleState :=
  match st.queue with
  | [] => (none, st)
  | h :: t => (some h, { queue := t, signature := st.signature })

/-- Embedding of `pickNextIndex`.  Returns the picked index (`none` models the
`null` sentinel), the shuffle state after the call (the source mutates it in
place) and the advanced random-stream cursor. -/
def pickNextIndex (p : PickNextIndexParams) (src : ℕ → ℚ) (pos : ℕ) :
    Option ℕ × ShuffleState × ℕ :=
  if p.total ≤ 0 then
    (none, p.shuffleState, pos)
  else if p.total = 1 then
    (some 0, p.shuffleState, pos)
  else if p.strategy = RandomStrategy.shuffle then
    let st1 := shuffleStep1 p.shuffleState p.signature
    let s2 := shuffleStep2 p.total.toNat src st1 pos
    let s3 := shuffleStep3 p.previousIndex p.avoidImmediateRepeat src s2.1 s2.2
    let s4 := shuffleStep4 p.total.toNat p.previousIndex p.avoidImmediateRepeat src s3.1 s3.2
    let r := shufflePop s4.1
    (r.1, r.2, s4.2)
  else
    let candidates := buildCandidates p.total.toNat p.previousIndex p.avoidImmediateRepeat
    if candidates = [] then
      (p.previousIndex, p.shuffleState, pos)
    else if p.strategy = RandomStrategy.weighted then
      let r := pickByWeight candidates p.weights src pos
      (some r.1, p.shuffleState, r.2)
    else
      (some (candidates.getD (floorMul (src pos) candidates.length) 0),
        p.shuffleState, pos + 1)

/-- Per-call inputs of one engine invocation in a driven call sequence; the
previous index is not a field because the driver feeds each call's result back
as the next call's `previousIndex` (the collaborator contract of the spec). -/
structure CallSpec where
  total : ℤ
  weights : List ℚ
  strategy : RandomStrategy
  avoidImmediateRepeat : Bool
  signature : String

/-- Drives a sequence of `pickNextIndex` calls, threading the shuffle state,
the random-stream cursor and the previous-index feedback, and collecting the
returned indices in order. -/
def runCalls (src : ℕ → ℚ) : List CallSpec → ShuffleState → ℕ → Option ℕ →
    List (Option ℕ) × ShuffleState × ℕ
  | [], st, pos, _ => ([], st, pos)
  | c :: cs, st, pos, prev =>
      let r := pickNextIndex
        { total := c.total, weights := c.weights, strategy := c.strategy,
          previousIndex := prev, avoidImmediateRepeat := c.avoidImmediateRepeat,
          shuffleState := st, signature := c.signature } src pos
      let rest := runCalls src cs r.2.1 r.2.2 r.1
      (r.1 :: rest.1, rest.2)

/-! Seeded pseudo-random generator (`createSeededRandom`, `hashSeed`). -/

/-- Modulus of 32-bit wrap-around arithmetic, the literal `4294967296`
(`2 ^ 32`) the source divides by. -/
def TWO32 : ℕ := 4294967296

/-- Increment `0x6d2b79f5` added to the generator state on every call. -/
def INC : ℕ := 1831565813

/-- Embedding of `Math.imul`: 32-bit multiplication.  On unsigned 32-bit
patterns, signed multiplication modulo `2 ^ 32` coincides with `a * b % 2^32`. -/
def imul (a b : ℕ) : ℕ := a * b % TWO32

/-- Mixing transform applied to the advanced state on each generator call:
`t = Math.imul(t ^ (t >>> 15), t | 1); t ^= t + Math.imul(t ^ (t >>> 7), t | 61);
return (t ^ (t >>> 14)) >>> 0`, on unsigned 32-bit patterns. -/
def mix (state : ℕ) : ℕ :=
  let t1 := imul (state ^^^ (state >>> 15)) (state ||| 1)
  let t2 := t1 ^^^ ((t1 + imul (t1 ^^^ (t1 >>> 7)) (t1 ||| 61)) % TWO32)
  t2 ^^^ (t2 >>> 14)

/-- Seed argument of `createSeededRandom`: `string | number`.  Numeric seeds
are modelled as integers (the source truncates them to unsigned 32 bits). -/
inductive Seed
  | str : String → Seed
  | num : ℤ → Seed

/-- UTF-16 code units of a character, matching JavaScript `charCodeAt`:
basic-plane code points are themselves, others split into a surrogate pair. -/
def utf16CodeUnits (c : Char) : List ℕ :=
  let n := c.toNat
  if n < 65536 then [n]
  else [55296 + (n - 65536) / 1024, 56320 + (n - 65536) % 1024]

/-- Embedding of `hashSeed`: numeric seeds are truncated to unsigned 32 bits
(`seed >>> 0`); textual seeds are folded code unit by code unit with the
FNV-1a multiplicative hash. -/
def hashSeed : Seed → ℕ
  | Seed.num z => (z % (TWO32 : ℤ)).toNat
  | Seed.str s =>
      (s.data.foldl (fun h c => (utf16CodeUnits c).foldl
        (fun h u => imul (h ^^^ u) 16777619) h) 2166136261)

/-- Initial generator state: the hashed seed, with `0` replaced by the fixed
non-zero constant `0x6d2b79f5`. -/
def initialState (seed : Seed) : ℕ :=
  let s := hashSeed seed
  if s = 0 then INC else s

/-- Generator state after `n` calls: each call first adds `0x6d2b79f5` to the
state (32-bit wrap-around). -/
def stateAfter (seed : Seed) : ℕ → ℕ
  | 0 => initialState seed
  | n + 1 => (stateAfter seed n + INC) % TWO32

/-- Embedding of the closure returned by `createSeededRandom seed`, as the
stream of its return values: the `n`-th call advances the state and returns
the mixed state divided by `2 ^ 32`. -/
def createSeededRandom (seed : Seed) : ℕ → ℚ :=
  fun n => (mix (stateAfter seed (n + 1)) : ℚ) / (TWO32 : ℚ)

/-! Basic lemmas about the helpers. -/

theorem floorMul_lt {r : ℚ} {n : ℕ} (h0 : 0 ≤ r) (h1 : r < 1) (hn : 0 < n) :
    floorMul r n < n := by
  have hmul : r * (n : ℚ) < (n : ℚ) := by
    have : (0 : ℚ) < (n : ℚ) := by exact_mod_cast hn
    nlinarith
  have hfloor : ⌊r * (n : ℚ)⌋ < (n : ℤ) := by
    rw [Int.floor_lt]
    exact_mod_cast hmul
  have h0' : (0 : ℤ) ≤ ⌊r * (n : ℚ)⌋ := Int.floor_nonneg.2 (by positivity)
  unfold floorMul
  omega

theorem length_listSwap (l : List ℕ) (i j : ℕ) :
    (listSwap l i j).length = l.length := by
  unfold listSwap
  rcases hi : l[i]? with _ | a <;> rcases hj : l[j]? with _ | b <;> simp

theorem cons_set_perm (a : ℕ) : ∀ (t : List ℕ) (k : ℕ), k < t.length →
    List.Perm (t.getD k 0 :: t.set k a) (a :: t) := by
  intro t
  induction t with
  | nil => intro k hk; simp at hk
  | cons b s ih =>
      intro k hk
      match k with
      | 0 => simpa using List.Perm.swap a b s
      | k + 1 =>
          have hk' : k < s.length := by simpa using hk
          have step1 : List.Perm (s.getD k 0 :: b :: s.set k a) (b :: s.getD k 0 :: s.set k a) :=
            List.Perm.swap b (s.getD k 0) (s.set k a)
          have step2 : List.Perm (b :: s.getD k 0 :: s.set k a) (b :: a :: s) :=
            List.Perm.cons b (ih k hk')
          have step3 : List.Perm (b :: a :: s) (a :: b :: s) := List.Perm.swap a b s
          simpa using (step1.trans step2).trans step3

theorem set_set_perm_getD : ∀ (l : List ℕ) (i j : ℕ), i < l.length → j < l.length →
    List.Perm ((l.set i (l.getD j 0)).set j (l.getD i 0)) l := by
  intro l
  induction l with
  | nil => intro i j hi _; simp at hi
  | cons a t ih =>
      intro i j hi hj
      match i, j with
      | 0, 0 => simp
      | 0, k + 1 =>
          have hk : k < t.length := by simpa using hj
          simpa using cons_set_perm a t k hk
      | m + 1, 0 =>
          have hm : m < t.length := by simpa using hi
          simpa using cons_set_perm a t m hm
      | m + 1, k + 1 =>
          have hm : m < t.length := by simpa using hi
          have hk : k < t.length := by simpa using hj
          simpa using List.Perm.cons a (ih m k hm hk)

theorem listSwap_perm (l : List ℕ) (i j : ℕ) : List.Perm (listSwap l i j) l := by
  unfold listSwap
  rcases hi : l[i]? with _ | a <;> rcases hj : l[j]? with _ | b
  · rfl
  · rfl
  · rfl
  · obtain ⟨hi', ha⟩ := List.getElem?_eq_some.1 hi
    obtain ⟨hj', hb⟩ := List.getElem?_eq_some.1 hj
    have hga : l.getD i 0 = a := by
      rw [List.getD_eq_getElem?_getD, hi]; rfl
    have hgb : l.getD j 0 = b := by
      rw [List.getD_eq_getElem?_getD, hj]; rfl
    have := set_set_perm_getD l i j hi' hj'
    rwa [hga, hgb] at this

theorem fisherYatesAux_perm (src : ℕ → ℚ) :
    ∀ (i : ℕ) (l : List ℕ) (pos : ℕ), List.Perm ((fisherYatesAux src i l pos).1) l := by
  intro i
  induction i with
  | zero => intro l pos; simp [fisherYatesAux]
  | succ i ih =>
      intro l pos
      have h1 := ih (listSwap l (i + 1) (floorMul (src pos) (i + 2))) (pos + 1)
      have h2 := listSwap_perm l (i + 1) (floorMul (src pos) (i + 2))
      exact (fisherYatesAux.eq_def src (i+1) l pos ▸ h1).trans h2

theorem shuffledIndices_perm (total : ℕ) (src : ℕ → ℚ) (pos : ℕ) :
    List.Perm ((shuffledIndices total src pos).1) (List.range total) :=
  fisherYatesAux_perm src (total - 1) (List.range total) pos

theorem shuffledIndices_length (total : ℕ) (src : ℕ → ℚ) (pos : ℕ) :
    (shuffledIndices total src pos).1.length = total := by
  have := (shuffledIndices_perm total src pos).length_eq
  simpa using this

theorem shuffledIndices_nodup (total : ℕ) (src : ℕ → ℚ) (pos : ℕ) :
    (shuffledIndices total src pos).1.Nodup :=
  ((shuffledIndices_perm total src pos).nodup_iff).2 (List.nodup_range total)

theorem getD_mem_of_lt {l : List ℕ} {i : ℕ} (h : i < l.length) :
    l.getD i 0 ∈ l := by
  rw [List.getD_eq_getElem?_getD, List.getElem?_eq_getElem h]
  exact List.getElem_mem h

/-! Lemmas about `effectiveWeight` and the cumulative walk of `pickByWeight`. -/

theorem effectiveWeight_nonneg (weights : List ℚ) (c : ℕ) :
    0 ≤ effectiveWeight weights c :=
  le_max_left 0 _

theorem weightWalk_mem (weights : List ℚ) :
    ∀ (cs : List ℕ) (cursor : ℚ) (c : ℕ),
      weightWalk weights cs cursor = some c → c ∈ cs := by
  intro cs
  induction cs with
  | nil => intro cursor c h; simp [weightWalk] at h
  | cons a rest ih =>
      intro cursor c h
      rw [weightWalk] at h
      by_cases hle : cursor - effectiveWeight weights a ≤ 0
      · simp only [hle, if_pos] at h
        simp [← Option.some_inj.1 h]
      · simp only [hle, if_neg, not_false_iff] at h
        exact List.mem_cons_of_mem a (ih _ c h)

theorem weightWalk_pos (weights : List ℚ) :
    ∀ (cs : List ℕ) (cursor : ℚ) (c : ℕ), 0 < cursor →
      weightWalk weights cs cursor = some c → 0 < effectiveWeight weights c := by
  intro cs
  induction cs with
  | nil => intro cursor c _ h; simp [weightWalk] at h
  | cons a rest ih =>
      intro cursor c hcur h
      rw [weightWalk] at h
      by_cases hle : cursor - effectiveWeight weights a ≤ 0
      · simp only [hle, if_pos] at h
        rw [← Option.some_inj.1 h]
        linarith
      · simp only [hle, if_neg, not_false_iff] at h
        exact ih _ c (by linarith) h

theorem weightWalk_isSome (weights : List ℚ) :
    ∀ (cs : List ℕ) (cursor : ℚ),
      cursor ≤ (cs.map (effectiveWeight weights)).sum → cs ≠ [] →
      (weightWalk weights cs cursor).isSome := by
  intro cs
  induction cs with
  | nil => intro cursor _ h; exact absurd rfl h
  | cons a rest ih =>
      intro cursor hsum _
      rw [weightWalk]
      by_cases hle : cursor - effectiveWeight weights a ≤ 0
      · simp [hle]
      · simp only [hle, if_neg, not_false_iff]
        rcases rest with _ | ⟨b, rest'⟩
        · exfalso
          simp only [List.map_nil, List.sum_nil, List.map_cons, List.sum_cons,
            add_zero] at hsum
          exact hle (by linarith)
        · refine ih _ ?_ (by simp)
          simp only [List.map_cons, List.sum_cons] at hsum ⊢
          linarith

theorem sum_effectiveWeight_pos {weights : List ℚ} {cs : List ℕ} {c : ℕ}
    (hc : c ∈ cs) (hpos : 0 < effectiveWeight weights c) :
    0 < (cs.map (effectiveWeight weights)).sum := by
  have hmem : effectiveWeight weights c ∈ cs.map (effectiveWeight weights) :=
    List.mem_map_of_mem _ hc
  have hle : effectiveWeight weights c ≤ (cs.map (effectiveWeight weights)).sum :=
    List.single_le_sum (fun x hx => by
      obtain ⟨y, _, rfl⟩ := List.mem_map.1 hx
      exact effectiveWeight_nonneg weights y) _ hmem
  linarith

theorem pickByWeight_mem {candidates : List ℕ} (weights : List ℚ)
    (src : ℕ → ℚ) (pos : ℕ) (hne : candidates ≠ [])
    (h0 : 0 ≤ src pos) (h1 : src pos < 1) :
    (pickByWeight candidates weights src pos).1 ∈ candidates := by
  have hlen : 0 < candidates.length := List.length_pos.2 hne
  rw [pickByWeight]
  by_cases hW : (candidates.map (effectiveWeight weights)).sum ≤ 0
  · simp only [hW, if_pos]
    exact getD_mem_of_lt (floorMul_lt h0 h1 hlen)
  · simp only [hW, if_neg, not_false_iff]
    have hWpos : 0 < (candidates.map (effectiveWeight weights)).sum := lt_of_not_le hW
    have hcur : src pos * (candidates.map (effectiveWeight weights)).sum ≤
        (candidates.map (effectiveWeight weights)).sum := by nlinarith
    have hs := weightWalk_isSome weights candidates _ hcur hne
    obtain ⟨c, hc⟩ := Option.isSome_iff_exists.1 hs
    rw [hc]
    exact weightWalk_mem weights candidates _ c hc

theorem pickByWeight_posWeight {candidates : List ℕ} {weights : List ℚ}
    {src : ℕ → ℚ} {pos : ℕ} (hne : candidates ≠ [])
    (h0 : 0 < src pos) (h1 : src pos < 1)
    (hex : ∃ c ∈ candidates, 0 < effectiveWeight weights c) :
    0 < effectiveWeight weights (pickByWeight candidates weights src pos).1 := by
  obtain ⟨c0, hc0, hc0pos⟩ := hex
  have hWpos : 0 < (candidates.map (effectiveWeight weights)).sum :=
    sum_effectiveWeight_pos hc0 hc0pos
  rw [pickByWeight]
  simp only [not_le.2 hWpos, if_neg, not_false_iff]
  have hcurpos : 0 < src pos * (candidates.map (effectiveWeight weights)).sum :=
    mul_pos h0 hWpos
  have hcur : src pos * (candidates.map (effectiveWeight weights)).sum ≤
      (candidates.map (effectiveWeight weights)).sum := by nlinarith
  have hs := weightWalk_isSome weights candidates _ hcur hne
  obtain ⟨c, hc⟩ := Option.isSome_iff_exists.1 hs
  rw [hc]
  exact weightWalk_pos weights candidates _ c hcurpos hc

/-! Lemmas about `buildCandidates`. -/

theorem buildCandidates_ne_nil {total : ℕ} (h2 : 2 ≤ total)
    (previousIndex : Option ℕ) (avoidImmediateRepeat : Bool) :
    buildCandidates total previousIndex avoidImmediateRepeat ≠ [] := by
  rw [buildCandidates]
  by_cases hcond : avoidImmediateRepeat = false ∨ previousIndex = none ∨ total ≤ 1
  · simp only [hcond, if_pos]
    exact List.ne_nil_of_length_pos (by simpa using by omega)
  · simp only [hcond, if_neg, not_false_iff]
    rcases previousIndex with _ | j
    · exact absurd (Or.inr (Or.inl rfl)) hcond
    · apply List.ne_nil_of_mem (a := if j = 0 then 1 else 0)
      rw [List.mem_filter]
      constructor
      · rw [List.mem_range]
        split <;> omega
      · simp only [decide_eq_true_eq]
        intro hcontra
        rw [Option.some_inj] at hcontra
        split at hcontra <;> omega

theorem not_mem_buildCandidates_self {total : ℕ} {j : ℕ} (h2 : 2 ≤ total) :
    j ∉ buildCandidates total (some j) true := by
  rw [buildCandidates]
  have hcond : ¬ (true = false ∨ (some j : Option ℕ) = none ∨ total ≤ 1) := by
    push_neg
    refine ⟨by simp, by simp, by omega⟩
  simp only [hcond, if_neg, not_false_iff]
  intro hmem
  rw [List.mem_filter] at hmem
  simp at hmem

theorem mem_buildCandidates_lt {total : ℕ} {previousIndex : Option ℕ}
    {avoidImmediateRepeat : Bool} {c : ℕ}
    (h : c ∈ buildCandidates total previousIndex avoidImmediateRepeat) :
    c < total := by
  rw [buildCandidates] at h
  split at h
  · simpa using h
  · rw [List.mem_filter] at h
    simpa using h.1

/-! Lemmas about the shuffle-branch steps. -/

theorem shuffleStep1_queue_nodup {st : ShuffleState} (sig : String)
    (h : st.queue.Nodup) : (shuffleStep1 st sig).queue.Nodup := by
  rw [shuffleStep1]; split <;> simp [h]

theorem shuffleStep2_queue_nodup (total : ℕ) (src : ℕ → ℚ) {st : ShuffleState}
    (pos : ℕ) (h : st.queue.Nodup) :
    (shuffleStep2 total src st pos).1.queue.Nodup := by
  rw [shuffleStep2]; split
  · exact shuffledIndices_nodup total src pos
  · exact h

theorem shuffleStep3_queue_nodup (previousIndex : Option ℕ)
    (avoidImmediateRepeat : Bool) (src : ℕ → ℚ) {st : ShuffleState} (pos : ℕ)
    (h : st.queue.Nodup) :
    (shuffleStep3 previousIndex avoidImmediateRepeat src st pos).1.queue.Nodup := by
  rw [shuffleStep3]; split
  · exact ((listSwap_perm st.queue 0 _).nodup_iff).2 h
  · exact h

theorem shuffleStep4_queue_nodup (total : ℕ) (previousIndex : Option ℕ)
    (avoidImmediateRepeat : Bool) (src : ℕ → ℚ) {st : ShuffleState} (pos : ℕ)
    (h : st.queue.Nodup) :
    (shuffleStep4 total previousIndex avoidImmediateRepeat src st pos).1.queue.Nodup := by
  simp only [shuffleStep4]
  split
  · split
    · exact ((listSwap_perm _ 0 1).nodup_iff).2 (shuffledIndices_nodup total src pos)
    · exact shuffledIndices_nodup total src pos
  · exact h

theorem shufflePop_queue_nodup {st : ShuffleState} (h : st.queue.Nodup) :
    (shufflePop st).2.queue.Nodup := by
  rw [shufflePop]
  rcases hq : st.queue with _ | ⟨a, t⟩
  · exact h
  · rw [hq] at h
    simpa using h.of_cons

theorem shuffleStep2_queue_ne_nil {total : ℕ} (ht : 0 < total) (src : ℕ → ℚ)
    (st : ShuffleState) (pos : ℕ) :
    (shuffleStep2 total src st pos).1.queue ≠ [] := by
  simp only [shuffleStep2]
  split
  · intro hcontra
    have hq : (shuffledIndices total src pos).1 = [] := hcontra
    have := shuffledIndices_length total src pos
    rw [hq] at this
    simp at this
    omega
  · assumption

theorem shuffleStep3_queue_length (previousIndex : Option ℕ)
    (avoidImmediateRepeat : Bool) (src : ℕ → ℚ) (st : ShuffleState) (pos : ℕ) :
    (shuffleStep3 previousIndex avoidImmediateRepeat src st pos).1.queue.length =
      st.queue.length := by
  rw [shuffleStep3]; split
  · exact length_listSwap st.queue 0 _
  · rfl

theorem shuffleStep4_queue_ne_nil {total : ℕ} (ht : 0 < total) (previousIndex : Option ℕ)
    (avoidImmediateRepeat : Bool) (src : ℕ → ℚ) {st : ShuffleState} (pos : ℕ)
    (h : st.queue ≠ []) :
    (shuffleStep4 total previousIndex avoidImmediateRepeat src st pos).1.queue ≠ [] := by
  simp only [shuffleStep4]
  split
  · intro hcontra
    have hlen : (shuffledIndices total src pos).1.length = total :=
      shuffledIndices_length total src pos
    split at hcontra
    · have hq : listSwap (shuffledIndices total src pos).1 0 1 = [] := hcontra
      have := length_listSwap (shuffledIndices total src pos).1 0 1
      rw [hq] at this
      simp at this
      omega
    · have hq : (shuffledIndices total src pos).1 = [] := hcontra
      rw [hq] at hlen
      simp at hlen
      omega
  · exact h

theorem shuffleStep4_of_length_ne_one (total : ℕ) (previousIndex : Option ℕ)
    (avoidImmediateRepeat : Bool) (src : ℕ → ℚ) (st : ShuffleState) (pos : ℕ)
    (h : st.queue.length ≠ 1) :
    shuffleStep4 total previousIndex avoidImmediateRepeat src st pos = (st, pos) := by
  simp only [shuffleStep4]
  rw [if_neg]
  intro hcond
  exact h hcond.2.2.1

theorem shufflePop_isSome {st : ShuffleState} (h : st.queue ≠ []) :
    ((shufflePop st).1).isSome := by
  rw [shufflePop]
  rcases hq : st.queue with _ | ⟨a, t⟩
  · exact absurd hq h
  · simp

theorem shufflePop_queue_length {st : ShuffleState} (h : st.queue ≠ []) :
    (shufflePop st).2.queue.length = st.queue.length - 1 := by
  rw [shufflePop]
  rcases hq : st.queue with _ | ⟨a, t⟩
  · exact absurd hq h
  · simp

/-! Claim theorems. -/

/-- C6.  Boundary behaviour of `pickNextIndex`: for every `total ≤ 0`, with any
strategy, weights, previous index and state, the result is the no-selection
sentinel `none` (not an error); and for every `total = 1`, with any strategy,
previous index and repeat-avoidance flag, the result is index `0`. -/
theorem pickNextIndex_boundary (p : PickNextIndexParams) (src : ℕ → ℚ) (pos : ℕ) :
    (p.total ≤ 0 → (pickNextIndex p src pos).1 = none) ∧
    (p.total = 1 → (pickNextIndex p src pos).1 = some 0) := by
  constructor
  · intro h
    rw [pickNextIndex, if_pos h]
  · intro h
    rw [pickNextIndex, if_neg (by omega), if_pos h]

/-- Witness for C6 at `total = 0` and `total = 1`. -/
theorem pickNextIndex_boundary_witness :
    (pickNextIndex ⟨0, [], RandomStrategy.uniform, none, true, ⟨[], ""⟩, "a"⟩
      (fun _ => 1/2) 0).1 = none ∧
    (pickNextIndex ⟨1, [3], RandomStrategy.shuffle, some 0, true, ⟨[], ""⟩, "a"⟩
      (fun _ => 1/2) 0).1 = some 0 :=
  ⟨(pickNextIndex_boundary _ (fun _ => 1/2) 0).1 (by decide),
   (pickNextIndex_boundary _ (fun _ => 1/2) 0).2 (by decide)⟩

theorem pick_state_of_nonshuffle (p : PickNextIndexParams) (src : ℕ → ℚ)
    (pos : ℕ) (h : p.strategy ≠ RandomStrategy.shuffle) :
    (pickNextIndex p src pos).2.1 = p.shuffleState := by
  by_cases h1 : p.total ≤ 0
  · simp [pickNextIndex, h1]
  · by_cases h2 : p.total = 1
    · simp [pickNextIndex, h1, h2]
    · by_cases h4 : buildCandidates p.total.toNat p.previousIndex p.avoidImmediateRepeat = []
      · simp [pickNextIndex, h1, h2, h, h4]
      · by_cases h5 : p.strategy = RandomStrategy.weighted
        · simp [pickNextIndex, h1, h2, h, h4, h5]
        · simp [pickNextIndex, h1, h2, h, h4, h5]

theorem pick_of_total_nonpos {p : PickNextIndexParams} (src : ℕ → ℚ) (pos : ℕ)
    (h : p.total ≤ 0) : pickNextIndex p src pos = (none, p.shuffleState, pos) := by
  rw [pickNextIndex, if_pos h]

theorem pick_of_total_one {p : PickNextIndexParams} (src : ℕ → ℚ) (pos : ℕ)
    (h : p.total = 1) : pickNextIndex p src pos = (some 0, p.shuffleState, pos) := by
  rw [pickNextIndex, if_neg (by omega), if_pos h]

/-- C7.  Frame condition: a `pickNextIndex` call whose strategy is `uniform` or
`weighted` (i.e. not `shuffle`) returns the `ShuffleState` (queue and
signature) unchanged; only `shuffle`-strategy calls may mutate it.  All other
inputs are immutable values in this embedding. -/
theorem pickNextIndex_frame_nonshuffle (p : PickNextIndexParams) (src : ℕ → ℚ)
    (pos : ℕ) (h : p.strategy ≠ RandomStrategy.shuffle) :
    (pickNextIndex p src pos).2.1 = p.shuffleState :=
  pick_state_of_nonshuffle p src pos h

/-- Witness for C7 at a concrete weighted call. -/
theorem pickNextIndex_frame_nonshuffle_witness :
    (pickNextIndex ⟨3, [0, 0, 4], RandomStrategy.weighted, none, true, ⟨[2, 0, 1], "s"⟩, "s"⟩
      (fun _ => 1/5) 0).2.1 = ⟨[2, 0, 1], "s"⟩ :=
  pickNextIndex_frame_nonshuffle _ (fun _ => 1/5) 0 (by decide)

theorem pickNextIndex_mem_candidates (p : PickNextIndexParams) (src : ℕ → ℚ)
    (pos : ℕ) (h : p.strategy ≠ RandomStrategy.shuffle) (ht : 1 < p.total)
    (h0 : 0 ≤ src pos) (h1 : src pos < 1) :
    ∀ c, (pickNextIndex p src pos).1 = some c →
      c ∈ buildCandidates p.total.toNat p.previousIndex p.avoidImmediateRepeat := by
  intro c hc
  have hn0 : ¬ p.total ≤ 0 := by omega
  have hn1 : p.total ≠ 1 := by omega
  have h2 : 2 ≤ p.total.toNat := by omega
  have hne := buildCandidates_ne_nil h2 p.previousIndex p.avoidImmediateRepeat
  by_cases h5 : p.strategy = RandomStrategy.weighted
  · have heq : (pickNextIndex p src pos).1 =
        some (pickByWeight (buildCandidates p.total.toNat p.previousIndex
          p.avoidImmediateRepeat) p.weights src pos).1 := by
      simp [pickNextIndex, hn0, hn1, h, hne, h5]
    rw [heq, Option.some_inj] at hc
    rw [← hc]
    exact pickByWeight_mem p.weights src pos hne h0 h1
  · have heq : (pickNextIndex p src pos).1 =
        some ((buildCandidates p.total.toNat p.previousIndex p.avoidImmediateRepeat).getD
          (floorMul (src pos)
            (buildCandidates p.total.toNat p.previousIndex p.avoidImmediateRepeat).length) 0) := by
      simp [pickNextIndex, hn0, hn1, h, hne, h5]
    rw [heq, Option.some_inj] at hc
    rw [← hc]
    exact getD_mem_of_lt (floorMul_lt h0 h1 (List.length_pos.2 hne))

/-- C3.  For strategy `uniform` or `weighted`, for every call with
`avoidImmediateRepeat = true`, `total > 1`, a non-null previous index and
random-source values in `[0,1)`, the returned index never equals the previous
index. -/
theorem pickNextIndex_avoids_previous (p : PickNextIndexParams) (src : ℕ → ℚ)
    (pos : ℕ) (j : ℕ)
    (hs : p.strategy = RandomStrategy.uniform ∨ p.strategy = RandomStrategy.weighted)
    (ha : p.avoidImmediateRepeat = true) (hp : p.previousIndex = some j)
    (ht : 1 < p.total) (hsrc : ∀ n, 0 ≤ src n ∧ src n < 1) :
    (pickNextIndex p src pos).1 ≠ some j := by
  intro hc
  have hsh : p.strategy ≠ RandomStrategy.shuffle := by
    rcases hs with h | h <;> simp [h]
  have hmem := pickNextIndex_mem_candidates p src pos hsh ht
    (hsrc pos).1 (hsrc pos).2 j hc
  rw [hp, ha] at hmem
  exact not_mem_buildCandidates_self (by omega) hmem

/-- Witness for C3: the spec's concrete scenario `total = 2`,
`weights = [1,1]`, uniform, `previousIndex = 0`, repeat avoidance on,
`random() = 0`. -/
theorem pickNextIndex_avoids_previous_witness :
    (pickNextIndex ⟨2, [1, 1], RandomStrategy.uniform, some 0, true, ⟨[], ""⟩, "a"⟩
      (fun _ => 0) 0).1 ≠ some 0 :=
  pickNextIndex_avoids_previous _ (fun _ => 0) 0 0 (Or.inl (by decide)) (by decide)
    (by decide) (by decide) (fun n => ⟨by norm_num, by norm_num⟩)

/-- C1 counterexample: at the random draw `0` (which lies in `[0,1)`), a
weighted call with `total = 2 > 1` and weights `[0, 1]` returns index `0`,
whose effective weight is `0`, although eligible index `1` has positive
effective weight.  The cumulative walk starts with cursor `0 * 1 = 0` and the
first subtraction leaves it at `0 ≤ 0`. -/
theorem weighted_zero_weight_selected_cex :
    (1 : ℤ) < 2 ∧
    ((0 : ℚ) ≤ 0 ∧ (0 : ℚ) < 1) ∧
    1 ∈ buildCandidates 2 none false ∧
    0 < effectiveWeight [0, 1] 1 ∧
    effectiveWeight [0, 1] 0 = 0 ∧
    (pickNextIndex ⟨2, [0, 1], RandomStrategy.weighted, none, false, ⟨[], ""⟩, ""⟩
      (fun _ => 0) 0).1 = some 0 := by
  refine ⟨by norm_num, ⟨le_refl 0, by norm_num⟩, by decide, ?_, ?_, ?_⟩
  · norm_num [effectiveWeight]
  · norm_num [effectiveWeight]
  · have hrs : RandomStrategy.weighted ≠ RandomStrategy.shuffle := by decide
    have ht2 : (2 : ℤ).toNat = 2 := rfl
    norm_num [pickNextIndex, pickByWeight, buildCandidates, effectiveWeight, weightWalk,
      floorMul, List.range_succ, hrs, ht2, List.cons_ne_nil]

/-- C1 as amended: for the weighted strategy, for every call with `total > 1`
and a random draw strictly inside `(0, 1)`, an eligible index whose effective
weight is `0` is never returned while at least one eligible index has positive
effective weight (the returned index always has positive effective weight).
The original claim fails only at a draw of exactly `0`. -/
theorem weighted_pos_weight_selected (p : PickNextIndexParams) (src : ℕ → ℚ)
    (pos : ℕ) (hw : p.strategy = RandomStrategy.weighted) (ht : 1 < p.total)
    (h0 : 0 < src pos) (h1 : src pos < 1)
    (hex : ∃ c ∈ buildCandidates p.total.toNat p.previousIndex p.avoidImmediateRepeat,
      0 < effectiveWeight p.weights c) :
    ∀ c, (pickNextIndex p src pos).1 = some c → 0 < effectiveWeight p.weights c := by
  intro c hc
  have hn0 : ¬ p.total ≤ 0 := by omega
  have hn1 : p.total ≠ 1 := by omega
  have h2 : 2 ≤ p.total.toNat := by omega
  have hne := buildCandidates_ne_nil h2 p.previousIndex p.avoidImmediateRepeat
  have hsh : p.strategy ≠ RandomStrategy.shuffle := by simp [hw]
  have heq : (pickNextIndex p src pos).1 =
      some (pickByWeight (buildCandidates p.total.toNat p.previousIndex
        p.avoidImmediateRepeat) p.weights src pos).1 := by
    simp [pickNextIndex, hn0, hn1, hsh, hne, hw]
  rw [heq, Option.some_inj] at hc
  rw [← hc]
  rcases hex with ⟨c0, hc0, hc0pos⟩
  exact pickByWeight_posWeight hne h0 h1 ⟨c0, hc0, hc0pos⟩

/-- Witness for the amended C1: the spec's concrete weighted scenario
(`total = 3`, `weights = [0,0,4]`, `random() = 0.2`) returns index `2`, whose
effective weight is positive. -/
theorem weighted_pos_weight_selected_witness :
    (pickNextIndex ⟨3, [0, 0, 4], RandomStrategy.weighted, none, true, ⟨[], ""⟩, "a"⟩
      (fun _ => 1/5) 0).1 = some 2 ∧
    0 < effectiveWeight [0, 0, 4] 2 :=
  ⟨by
     have hrs : RandomStrategy.weighted ≠ RandomStrategy.shuffle := by decide
     have ht3 : (3 : ℤ).toNat = 3 := rfl
     norm_num [pickNextIndex, pickByWeight, buildCandidates, effectiveWeight, weightWalk,
       floorMul, List.range_succ, hrs, ht3, List.cons_ne_nil],
   weighted_pos_weight_selected
     ⟨3, [0, 0, 4], RandomStrategy.weighted, none, true, ⟨[], ""⟩, "a"⟩
     (fun _ => 1/5) 0 (by decide) (by decide)
     (by norm_num) (by norm_num)
     ⟨2, by decide, by norm_num [effectiveWeight]⟩ 2
     (by
       have hrs : RandomStrategy.weighted ≠ RandomStrategy.shuffle := by decide
       have ht3 : (3 : ℤ).toNat = 3 := rfl
       norm_num [pickNextIndex, pickByWeight, buildCandidates, effectiveWeight, weightWalk,
         floorMul, List.range_succ, hrs, ht3, List.cons_ne_nil])⟩

theorem shuffleStep1_queue_nil {st : ShuffleState} (sig : String)
    (h : st.queue = []) : (shuffleStep1 st sig).queue = [] := by
  simp only [shuffleStep1]
  split <;> simp [h]

theorem shuffleStep2_of_nil (total : ℕ) (src : ℕ → ℚ) (st : ShuffleState)
    (pos : ℕ) (h : st.queue = []) :
    shuffleStep2 total src st pos =
      ({ queue := (shuffledIndices total src pos).1, signature := st.signature },
        (shuffledIndices total src pos).2) := by
  simp only [shuffleStep2, if_pos h]

theorem shuffle_chain_pop_isSome (total : ℕ) (h2 : 2 ≤ total) (prev : Option ℕ)
    (avoid : Bool) (src : ℕ → ℚ) (st : ShuffleState) (pos : ℕ) :
    ((shufflePop (shuffleStep4 total prev avoid src
        (shuffleStep3 prev avoid src (shuffleStep2 total src st pos).1
          (shuffleStep2 total src st pos).2).1
        (shuffleStep3 prev avoid src (shuffleStep2 total src st pos).1
          (shuffleStep2 total src st pos).2).2).1).1).isSome := by
  have hq2 : (shuffleStep2 total src st pos).1.queue ≠ [] :=
    shuffleStep2_queue_ne_nil (by omega) src st pos
  have hq3 : (shuffleStep3 prev avoid src (shuffleStep2 total src st pos).1
      (shuffleStep2 total src st pos).2).1.queue ≠ [] := by
    intro hc
    have hl := shuffleStep3_queue_length prev avoid src (shuffleStep2 total src st pos).1
      (shuffleStep2 total src st pos).2
    rw [hc] at hl
    exact hq2 (List.length_eq_zero.1 hl.symm)
  exact shufflePop_isSome (shuffleStep4_queue_ne_nil (by omega) prev avoid src _ hq3)

theorem shuffle_chain_queue_length_of_nil (total : ℕ) (h2 : 2 ≤ total)
    (prev : Option ℕ) (avoid : Bool) (src : ℕ → ℚ) (st : ShuffleState)
    (pos : ℕ) (hq : st.queue = []) :
    ((shufflePop (shuffleStep4 total prev avoid src
        (shuffleStep3 prev avoid src (shuffleStep2 total src st pos).1
          (shuffleStep2 total src st pos).2).1
        (shuffleStep3 prev avoid src (shuffleStep2 total src st pos).1
          (shuffleStep2 total src st pos).2).2).1).2).queue.length = total - 1 := by
  have hlen2 : (shuffleStep2 total src st pos).1.queue.length = total := by
    rw [shuffleStep2_of_nil total src st pos hq]
    exact shuffledIndices_length total src pos
  have hlen3 : (shuffleStep3 prev avoid src (shuffleStep2 total src st pos).1
      (shuffleStep2 total src st pos).2).1.queue.length = total := by
    rw [shuffleStep3_queue_length]
    exact hlen2
  rw [shuffleStep4_of_length_ne_one total prev avoid src _ _ (by omega)]
  rw [shufflePop_queue_length (by
    intro hc
    rw [hc] at hlen3
    simp at hlen3
    omega)]
  rw [hlen3]

/-- C10.  For every `pickNextIndex` call with `total ≥ 1`, random-source values
in `[0,1)` and, for the shuffle strategy, an incoming queue whose elements lie
in `[0,total)` without duplicates, the result is an index and never the `null`
sentinel: the empty-candidates fallback and the empty-queue-at-shift branch are
unreachable, so `null` is returned exactly in the `total ≤ 0` case. -/
theorem pickNextIndex_total_pos_ne_none (p : PickNextIndexParams) (src : ℕ → ℚ)
    (pos : ℕ) (ht : 1 ≤ p.total) (hsrc : ∀ n, 0 ≤ src n ∧ src n < 1)
    (hq : p.strategy = RandomStrategy.shuffle →
      (∀ x ∈ p.shuffleState.queue, x < p.total.toNat) ∧ p.shuffleState.queue.Nodup) :
    (pickNextIndex p src pos).1 ≠ none := by
  have hn0 : ¬ p.total ≤ 0 := by omega
  by_cases h2 : p.total = 1
  · rw [pick_of_total_one src pos h2]
    simp
  · have ht2 : 2 ≤ p.total.toNat := by omega
    by_cases hsh : p.strategy = RandomStrategy.shuffle
    · rw [pickNextIndex, if_neg hn0, if_neg h2, if_pos hsh]
      exact Option.isSome_iff_ne_none.1
        (shuffle_chain_pop_isSome p.total.toNat ht2 p.previousIndex
          p.avoidImmediateRepeat src (shuffleStep1 p.shuffleState p.signature) pos)
    · have hne := buildCandidates_ne_nil ht2 p.previousIndex p.avoidImmediateRepeat
      by_cases h5 : p.strategy = RandomStrategy.weighted
      · simp [pickNextIndex, hn0, h2, hsh, hne, h5]
      · simp [pickNextIndex, hn0, h2, hsh, hne, h5]

/-- Witness for C10 at a concrete shuffle call from an empty queue. -/
theorem pickNextIndex_total_pos_ne_none_witness :
    (pickNextIndex ⟨3, [], RandomStrategy.shuffle, none, false, ⟨[], ""⟩, "s"⟩
      (fun _ => 0) 0).1 ≠ none :=
  pickNextIndex_total_pos_ne_none _ (fun _ => 0) 0 (by decide)
    (fun _ => ⟨le_refl 0, by norm_num⟩) (fun _ => ⟨by simp, by simp⟩)

/-- C4.  Queue invariant preservation: for every single `pickNextIndex` call
with any strategy and total, and random-source values in `[0,1)`, if the
incoming `ShuffleState` queue has no duplicates (hence contains each index of
`[0,total)` at most once), so does the outgoing queue. -/
theorem pickNextIndex_preserves_queue_nodup (p : PickNextIndexParams)
    (src : ℕ → ℚ) (pos : ℕ) (hsrc : ∀ n, 0 ≤ src n ∧ src n < 1)
    (h : p.shuffleState.queue.Nodup) :
    (pickNextIndex p src pos).2.1.queue.Nodup := by
  by_cases h1 : p.total ≤ 0
  · rw [pick_of_total_nonpos src pos h1]
    exact h
  · by_cases h2 : p.total = 1
    · rw [pick_of_total_one src pos h2]
      exact h
    · by_cases hsh : p.strategy = RandomStrategy.shuffle
      · rw [pickNextIndex, if_neg h1, if_neg h2, if_pos hsh]
        exact shufflePop_queue_nodup
          (shuffleStep4_queue_nodup _ _ _ _ _
            (shuffleStep3_queue_nodup _ _ _ _
              (shuffleStep2_queue_nodup _ _ _
                (shuffleStep1_queue_nodup _ h))))
      · rw [pick_state_of_nonshuffle p src pos hsh]
        exact h

/-- Witness for C4 at a concrete shuffle call with a duplicate-free queue. -/
theorem pickNextIndex_preserves_queue_nodup_witness :
    (pickNextIndex ⟨3, [], RandomStrategy.shuffle, some 1, true, ⟨[1, 0, 2], "s"⟩, "s"⟩
      (fun _ => 0) 0).2.1.queue.Nodup :=
  pickNextIndex_preserves_queue_nodup _ (fun _ => 0) 0
    (fun _ => ⟨le_refl 0, by norm_num⟩) (by decide)

theorem pickNextIndex_shuffle_queue_length (p : PickNextIndexParams)
    (src : ℕ → ℚ) (pos : ℕ) (hsh : p.strategy = RandomStrategy.shuffle)
    (ht : 1 < p.total) (hq : p.shuffleState.queue = []) :
    (pickNextIndex p src pos).2.1.queue.length = p.total.toNat - 1 := by
  rw [pickNextIndex, if_neg (by omega), if_neg (by omega), if_pos hsh]
  exact shuffle_chain_queue_length_of_nil p.total.toNat (by omega) p.previousIndex
    p.avoidImmediateRepeat src (shuffleStep1 p.shuffleState p.signature) pos
    (shuffleStep1_queue_nil p.signature hq)

/-- C9 counterexample: the claim says every shuffle-strategy call mutates the
`ShuffleState` for any total, but two kinds of shuffle call return the state
completely unchanged.  First, with `total = 1` the early return precedes the
shuffle branch.  Second, even with `total = 2 > 1`: with incoming queue
`[0]`, previous index `0`, repeat avoidance on, a matching signature and a
draw of `0`, the cycle-boundary step regenerates the permutation `[1, 0]`
(front `1 ≠ 0`, so no corrective swap) and the pop returns `1` leaving the
queue `[0]` again — the resulting state equals the incoming one. -/
theorem shuffle_call_no_mutation_cex :
    ((⟨1, [], RandomStrategy.shuffle, some 0, true, ⟨[0], "s"⟩, "s"⟩
        : PickNextIndexParams).strategy = RandomStrategy.shuffle ∧
      (pickNextIndex ⟨1, [], RandomStrategy.shuffle, some 0, true, ⟨[0], "s"⟩, "s"⟩
        (fun _ => 0) 0).2.1 =
        (⟨1, [], RandomStrategy.shuffle, some 0, true, ⟨[0], "s"⟩, "s"⟩
          : PickNextIndexParams).shuffleState) ∧
    ((⟨2, [], RandomStrategy.shuffle, some 0, true, ⟨[0], "s"⟩, "s"⟩
        : PickNextIndexParams).strategy = RandomStrategy.shuffle ∧
      (1 : ℤ) < (⟨2, [], RandomStrategy.shuffle, some 0, true, ⟨[0], "s"⟩, "s"⟩
        : PickNextIndexParams).total ∧
      ((0 : ℚ) ≤ 0 ∧ (0 : ℚ) < 1) ∧
      (pickNextIndex ⟨2, [], RandomStrategy.shuffle, some 0, true, ⟨[0], "s"⟩, "s"⟩
        (fun _ => 0) 0).2.1 =
        (⟨2, [], RandomStrategy.shuffle, some 0, true, ⟨[0], "s"⟩, "s"⟩
          : PickNextIndexParams).shuffleState) :=
  ⟨⟨rfl, by rw [pick_of_total_one (fun _ => 0) 0 rfl]⟩,
   ⟨rfl, by norm_num, ⟨le_refl 0, by norm_num⟩, by
     have ht2 : (2 : ℤ).toNat = 2 := rfl
     norm_num [pickNextIndex, shuffleStep1, shuffleStep2, shuffleStep3, shuffleStep4,
       shufflePop, shuffledIndices, fisherYatesAux, listSwap, floorMul,
       List.range_succ, ht2, List.cons_ne_nil, Option.some_ne_none]⟩⟩

/-- C9 as amended: only shuffle-strategy calls may change the `ShuffleState`;
every call with another strategy, and every call with `total ≤ 1`, returns it
unchanged; a shuffle call with `total > 1` may also leave the state unchanged
(second counterexample input: the cycle-boundary regeneration can land back on
the incoming queue value), but with `total > 1` and an empty incoming queue it
does change it (the rebuilt queue has its front popped). -/
theorem shuffle_mutation_profile (p : PickNextIndexParams) (src : ℕ → ℚ)
    (pos : ℕ) :
    (p.strategy ≠ RandomStrategy.shuffle → (pickNextIndex p src pos).2.1 = p.shuffleState) ∧
    (p.total ≤ 1 → (pickNextIndex p src pos).2.1 = p.shuffleState) ∧
    (p.strategy = RandomStrategy.shuffle → 1 < p.total → p.shuffleState.queue = [] →
      (pickNextIndex p src pos).2.1.queue ≠ p.shuffleState.queue) := by
  refine ⟨fun h => pick_state_of_nonshuffle p src pos h, fun h => ?_, fun hsh ht hq => ?_⟩
  · by_cases h1 : p.total ≤ 0
    · rw [pick_of_total_nonpos src pos h1]
    · have h2 : p.total = 1 := by omega
      rw [pick_of_total_one src pos h2]
  · intro hc
    have hl := pickNextIndex_shuffle_queue_length p src pos hsh ht hq
    rw [hc, hq] at hl
    simp at hl
    omega

/-- Witness for the amended C9: a weighted call leaves the state unchanged and
a shuffle call with `total = 3` from an empty queue changes the queue. -/
theorem shuffle_mutation_profile_witness :
    (pickNextIndex ⟨2, [1, 1], RandomStrategy.weighted, none, false, ⟨[1, 0], "x"⟩, "x"⟩
      (fun _ => 0) 0).2.1 = ⟨[1, 0], "x"⟩ ∧
    (pickNextIndex ⟨3, [], RandomStrategy.shuffle, none, false, ⟨[], "s"⟩, "s"⟩
      (fun _ => 0) 0).2.1.queue ≠ [] :=
  ⟨(shuffle_mutation_profile ⟨2, [1, 1], RandomStrategy.weighted, none, false,
      ⟨[1, 0], "x"⟩, "x"⟩ (fun _ => 0) 0).1 (by decide),
   (shuffle_mutation_profile ⟨3, [], RandomStrategy.shuffle, none, false,
      ⟨[], "s"⟩, "s"⟩ (fun _ => 0) 0).2.2 rfl (by decide) rfl⟩

theorem reduceOption_map_some (l : List ℕ) : (l.map some).reduceOption = l := by
  induction l with
  | nil => simp
  | cons a t ih => simp [ih]

theorem pick_shuffle_consume (total : ℤ) (h2 : 2 ≤ total) (ws : List ℚ)
    (prev : Option ℕ) (sig : String) (a : ℕ) (t : List ℕ) (src : ℕ → ℚ)
    (pos : ℕ) :
    pickNextIndex ⟨total, ws, RandomStrategy.shuffle, prev, false, ⟨a :: t, sig⟩, sig⟩
        src pos = (some a, ⟨t, sig⟩, pos) := by
  have hn0 : ¬ (total ≤ 0) := by omega
  have hn1 : total ≠ 1 := by omega
  simp [pickNextIndex, hn0, hn1, shuffleStep1, shuffleStep2, shuffleStep3,
    shuffleStep4, shufflePop]

theorem runCalls_consume (src : ℕ → ℚ) (total : ℤ) (h2 : 2 ≤ total) (ws : List ℚ)
    (sig : String) :
    ∀ (q : List ℕ) (pos : ℕ) (prev : Option ℕ),
      runCalls src (List.replicate q.length ⟨total, ws, RandomStrategy.shuffle, false, sig⟩)
          ⟨q, sig⟩ pos prev = (q.map some, ⟨[], sig⟩, pos) := by
  intro q
  induction q with
  | nil => intro pos prev; simp [runCalls]
  | cons a t ih =>
      intro pos prev
      rw [List.length_cons, List.replicate_succ, runCalls]
      simp only [pick_shuffle_consume total h2 ws prev sig a t src pos, ih]
      simp

theorem pick_shuffle_first (total : ℤ) (h2 : 2 ≤ total) (ws : List ℚ)
    (prev : Option ℕ) (sig0 sig : String) (src : ℕ → ℚ) (pos : ℕ) :
    ∃ a t, (shuffledIndices total.toNat src pos).1 = a :: t ∧
      pickNextIndex ⟨total, ws, RandomStrategy.shuffle, prev, false, ⟨[], sig0⟩, sig⟩
          src pos = (some a, ⟨t, sig⟩, (shuffledIndices total.toNat src pos).2) := by
  obtain ⟨a, t, hq⟩ : ∃ a t, (shuffledIndices total.toNat src pos).1 = a :: t := by
    rcases hql : (shuffledIndices total.toNat src pos).1 with _ | ⟨a, t⟩
    · exfalso
      have := shuffledIndices_length total.toNat src pos
      rw [hql] at this
      simp at this
      omega
    · exact ⟨a, t, rfl⟩
  refine ⟨a, t, hq, ?_⟩
  have hn0 : ¬ (total ≤ 0) := by omega
  have hn1 : total ≠ 1 := by omega
  by_cases hsig : sig0 = sig
  · subst hsig
    simp [pickNextIndex, hn0, hn1, shuffleStep1, shuffleStep2, shuffleStep3,
      shuffleStep4, shufflePop, hq]
  · simp [pickNextIndex, hn0, hn1, shuffleStep1, shuffleStep2, shuffleStep3,
      shuffleStep4, shufflePop, hq, hsig]

/-- C2.  Shuffle strategy: starting from an empty queue, `total ≥ 2`
consecutive calls with a constant signature and `avoidImmediateRepeat = false`
(previous index fed back by the driver) return `total` pairwise-distinct
indices whose set is exactly `[0,total)` — a full permutation per cycle, with
no `null` among the results. -/
theorem shuffle_cycle_permutation (total : ℕ) (h2 : 2 ≤ total) (ws : List ℚ)
    (src : ℕ → ℚ) (hsrc : ∀ n, 0 ≤ src n ∧ src n < 1) (sig0 sig : String)
    (pos : ℕ) (prev0 : Option ℕ) :
    ((runCalls src (List.replicate total ⟨(total : ℤ), ws, RandomStrategy.shuffle, false, sig⟩)
        ⟨[], sig0⟩ pos prev0).1.reduceOption).Nodup ∧
    ((runCalls src (List.replicate total ⟨(total : ℤ), ws, RandomStrategy.shuffle, false, sig⟩)
        ⟨[], sig0⟩ pos prev0).1.reduceOption).toFinset = Finset.range total ∧
    ((runCalls src (List.replicate total ⟨(total : ℤ), ws, RandomStrategy.shuffle, false, sig⟩)
        ⟨[], sig0⟩ pos prev0).1.reduceOption).length = total ∧
    none ∉ (runCalls src (List.replicate total ⟨(total : ℤ), ws, RandomStrategy.shuffle, false, sig⟩)
        ⟨[], sig0⟩ pos prev0).1 := by
  have h2z : 2 ≤ (total : ℤ) := by exact_mod_cast h2
  obtain ⟨a, t, hq, heq⟩ :=
    pick_shuffle_first (total : ℤ) h2z ws prev0 sig0 sig src pos
  have htn : ((total : ℤ)).toNat = total := by omega
  rw [htn] at hq heq
  have hperm : List.Perm (a :: t) (List.range total) :=
    hq ▸ shuffledIndices_perm total src pos
  have hlen : (a :: t).length = total := by
    rw [← hq]
    exact shuffledIndices_length total src pos
  have hout : (runCalls src
      (List.replicate total ⟨(total : ℤ), ws, RandomStrategy.shuffle, false, sig⟩)
      ⟨[], sig0⟩ pos prev0).1 = (a :: t).map some := by
    have h1 : total = t.length + 1 := by
      have := hlen
      simp at this
      omega
    have hrep : List.replicate total
          (⟨(total : ℤ), ws, RandomStrategy.shuffle, false, sig⟩ : CallSpec) =
        (⟨(total : ℤ), ws, RandomStrategy.shuffle, false, sig⟩ : CallSpec) ::
          List.replicate t.length
            (⟨(total : ℤ), ws, RandomStrategy.shuffle, false, sig⟩ : CallSpec) := by
      rw [h1, List.replicate_succ]
    rw [hrep, runCalls]
    simp only [heq, runCalls_consume src (total : ℤ) h2z ws sig t
      (shuffledIndices total src pos).2 (some a)]
    simp
  rw [hout, reduceOption_map_some]
  refine ⟨hperm.nodup_iff.2 (List.nodup_range total), ?_, ?_, ?_⟩
  · rw [List.toFinset_eq_of_perm _ _ hperm]
    ext x
    simp
  · rw [hperm.length_eq]
    simp
  · simp

/-- Witness for C2 at `total = 3` with the constant-zero random source. -/
theorem shuffle_cycle_permutation_witness :
    ((runCalls (fun _ => 0)
        (List.replicate 3 ⟨(3 : ℤ), [], RandomStrategy.shuffle, false, "s"⟩)
        ⟨[], ""⟩ 0 none).1.reduceOption).Nodup ∧
    ((runCalls (fun _ => 0)
        (List.replicate 3 ⟨(3 : ℤ), [], RandomStrategy.shuffle, false, "s"⟩)
        ⟨[], ""⟩ 0 none).1.reduceOption).toFinset = Finset.range 3 ∧
    ((runCalls (fun _ => 0)
        (List.replicate 3 ⟨(3 : ℤ), [], RandomStrategy.shuffle, false, "s"⟩)
        ⟨[], ""⟩ 0 none).1.reduceOption).length = 3 ∧
    none ∉ (runCalls (fun _ => 0)
        (List.replicate 3 ⟨(3 : ℤ), [], RandomStrategy.shuffle, false, "s"⟩)
        ⟨[], ""⟩ 0 none).1 :=
  shuffle_cycle_permutation 3 (by norm_num) [] (fun _ => 0)
    (fun _ => ⟨le_refl 0, by norm_num⟩) "" "s" 0 none

/-- C5.  Determinism: two engine instances seeded identically (so
`createSeededRandom` produces identical value streams) and driven with the
same call sequence from the same initial shuffle state, stream position and
previous index return identical index sequences and end in identical
`ShuffleState`s. -/
theorem engine_deterministic (seed1 seed2 : Seed) (h : seed1 = seed2)
    (calls : List CallSpec) (st : ShuffleState) (pos : ℕ) (prev : Option ℕ) :
    runCalls (createSeededRandom seed1) calls st pos prev =
      runCalls (createSeededRandom seed2) calls st pos prev := by
  rw [h]

/-- Witness for C5 with a string seed and a mixed call sequence. -/
theorem engine_deterministic_witness :
    runCalls (createSeededRandom (Seed.str "seed"))
        [⟨3, [1, 2, 3], RandomStrategy.weighted, true, "s"⟩,
         ⟨3, [1, 2, 3], RandomStrategy.shuffle, false, "s"⟩]
        ⟨[], ""⟩ 0 none =
      runCalls (createSeededRandom (Seed.str "seed"))
        [⟨3, [1, 2, 3], RandomStrategy.weighted, true, "s"⟩,
         ⟨3, [1, 2, 3], RandomStrategy.shuffle, false, "s"⟩]
        ⟨[], ""⟩ 0 none :=
  engine_deterministic (Seed.str "seed") (Seed.str "seed") rfl _ _ 0 none

/-! Range of the seeded generator. -/

theorem xor_lt_TWO32 {x y : ℕ} (hx : x < TWO32) (hy : y < TWO32) :
    x ^^^ y < TWO32 := by
  have h32 : TWO32 = 2 ^ 32 := by norm_num [TWO32]
  rw [h32] at hx hy ⊢
  exact Nat.bitwise_lt hx hy

theorem imul_lt_TWO32 (a b : ℕ) : imul a b < TWO32 :=
  Nat.mod_lt _ (by norm_num [TWO32])

theorem shiftRight_self_le (t k : ℕ) : t >>> k ≤ t := by
  rw [Nat.shiftRight_eq_div_pow]
  exact Nat.div_le_self t (2 ^ k)

theorem mix_lt_TWO32 (s : ℕ) : mix s < TWO32 := by
  simp only [mix]
  apply xor_lt_TWO32
  · apply xor_lt_TWO32
    · exact imul_lt_TWO32 _ _
    · exact Nat.mod_lt _ (by norm_num [TWO32])
  · exact lt_of_le_of_lt (shiftRight_self_le _ _)
      (xor_lt_TWO32 (imul_lt_TWO32 _ _) (Nat.mod_lt _ (by norm_num [TWO32])))

/-- C8.  For every seed (string or number) and every position `n` of the
stream, the `n`-th value produced by the function returned from
`createSeededRandom` lies in `[0, 1)`. -/
theorem createSeededRandom_range (seed : Seed) (n : ℕ) :
    0 ≤ createSeededRandom seed n ∧ createSeededRandom seed n < 1 := by
  constructor
  · apply div_nonneg
    · exact_mod_cast Nat.zero_le _
    · norm_num [TWO32]
  · rw [createSeededRandom, div_lt_one (by norm_num [TWO32])]
    exact_mod_cast mix_lt_TWO32 (stateAfter seed (n + 1))

end RRLI
